import Mathlib

/-!
Verification of the PageRank engine (src/pagerank.py) against its design
specification.  The Python code is shallowly embedded over exact rationals:
Python dicts become association lists (preserving insertion order), the
random draws of the sampler become an explicit oracle of drawn pages, and
the unbounded convergence loop of the iterative solver becomes a
fuel-indexed recursion returning an Option.
-/

namespace PageRank

/-- A corpus, as produced by crawl: a dict from page name to the list of
pages it links to (a Python set, hence assumed duplicate-free where needed). -/
abbrev Corpus := List (String × List String)

/-- Python dict lookup on an association list: first binding wins; a missing
key is a KeyError, modelled as none. -/
def dictLookup {α : Type} : List (String × α) → String → Option α
  | [], _ => none
  | kv :: rest, p => if kv.1 = p then some kv.2 else dictLookup rest p

/-- The keys of the corpus dict, in insertion order. -/
def pageKeys (corpus : Corpus) : List String :=
  corpus.map Prod.fst

/-- Core of transition_model after the initial page = page[0] extraction:
looks the page up in the corpus (KeyError when absent, modelled as none) and
builds the next-page distribution dict exactly as the Python loop does. -/
def transition_model_core (corpus : Corpus) (page : String)
    (damping_factor : ℚ) : Option (List (String × ℚ)) :=
  match dictLookup corpus page with
  | none => none
  | some links =>
    if links.length ≠ 0 then
      some (corpus.map (fun kv =>
        (kv.1,
          if kv.1 ∈ links then
            damping_factor / (links.length : ℚ) +
              (1 - damping_factor) / (corpus.length : ℚ)
          else (1 - damping_factor) / (corpus.length : ℚ))))
    else
      some (corpus.map (fun kv => (kv.1, 1 / (corpus.length : ℚ))))

/-- transition_model as called with a Python list argument: the line
page = page[0] takes the first element (IndexError on an empty list,
modelled as none). -/
def transition_model (corpus : Corpus) (page : List String)
    (damping_factor : ℚ) : Option (List (String × ℚ)) :=
  match page with
  | [] => none
  | p :: _ => transition_model_core corpus p damping_factor

/-- transition_model as it would behave on a bare string argument: in Python
page[0] on a string is its first character as a one-character string
(IndexError on the empty string, modelled as none). -/
def transition_model_str (corpus : Corpus) (page : String)
    (damping_factor : ℚ) : Option (List (String × ℚ)) :=
  match page.data with
  | [] => none
  | c :: _ => transition_model_core corpus (String.mk [c]) damping_factor

/-- Number of occurrences of a page in a list of drawn samples. -/
def occCount : List String → String → ℕ
  | [], _ => 0
  | x :: rest, k => occCount rest k + (if x = k then 1 else 0)

/-- The while-loop of sample_pagerank: each pass recomputes the transition
model of the current sample (a KeyError there aborts the call), increments
the counter of the next drawn page and makes it current.  The weighted
random draws are supplied by the draws oracle. -/
def sampleLoop (corpus : Corpus) (damping_factor : ℚ) :
    List String → String → (String → ℕ) → Option (String → ℕ)
  | [], _, results => some results
  | next :: rest, current, results =>
    match transition_model corpus [current] damping_factor with
    | none => none
    | some _ =>
        sampleLoop corpus damping_factor rest next
          (fun k => if k = next then results k + 1 else results k)

/-- sample_pagerank: counters start at 0, the first (uniform) draw is set to
1, each of the remaining n - 1 weighted draws adds 1, and every counter is
finally divided by n (a ZeroDivisionError when n = 0, modelled as none).
The oracle draws lists the first uniform draw followed by the weighted ones. -/
def sample_pagerank (corpus : Corpus) (damping_factor : ℚ) (n : ℕ)
    (draws : List String) : Option (List (String × ℚ)) :=
  match draws with
  | [] => none
  | d0 :: rest =>
    if n = 0 then none
    else
      match sampleLoop corpus damping_factor rest d0
          (fun k => if k = d0 then 1 else 0) with
      | none => none
      | some results =>
          some (corpus.map (fun kv => (kv.1, (results kv.1 : ℚ) / (n : ℚ))))

/-- The inner sum of iterate_pagerank for one target page: every corpus
entry contributes prev/outdegree when it links to the page, and
additionally prev/N when it has no outbound links. -/
def linkSum (corpus : Corpus) (prev : String → ℚ) (key : String) : ℚ :=
  (corpus.map (fun kv =>
    (if key ∈ kv.2 then prev kv.1 / (kv.2.length : ℚ) else 0) +
      (if kv.2.length = 0 then prev kv.1 / (corpus.length : ℚ) else 0))).sum

/-- One round of the PageRank recurrence. -/
def stepRank (corpus : Corpus) (damping_factor : ℚ) (prev : String → ℚ) :
    String → ℚ :=
  fun key =>
    (1 - damping_factor) / (corpus.length : ℚ) +
      damping_factor * linkSum corpus prev key

/-- The initial rank mapping: 1/N for every page. -/
def initRank (corpus : Corpus) : String → ℚ :=
  fun _ => 1 / (corpus.length : ℚ)

/-- The rank mapping held in prev_results at the start of round k. -/
def prevAt (corpus : Corpus) (damping_factor : ℚ) (k : ℕ) : String → ℚ :=
  (stepRank corpus damping_factor)^[k] (initRank corpus)

/-- Python math.trunc on a rational: truncation toward zero. -/
def mtrunc (x : ℚ) : ℤ :=
  if 0 ≤ x then ⌊x⌋ else ⌈x⌉

/-- Truncation to 4 decimal places, as in the Python source. -/
def trunc4 (x : ℚ) : ℚ :=
  ((mtrunc (x * 10 ^ 4) : ℚ)) / 10 ^ 4

/-- The per-round convergence test: breaker reaches len(corpus) exactly when
every page passes math.trunc(abs(x - y) * 10**3) <= 1 on the 4-decimal
truncations x, y of its new and previous rank. -/
def allConverged (corpus : Corpus) (prev results : String → ℚ) : Bool :=
  (pageKeys corpus).all
    (fun k => decide (mtrunc (|trunc4 (results k) - trunc4 (prev k)| * 10 ^ 3) ≤ 1))

/-- The while-loop of iterate_pagerank, with explicit fuel standing for the
number of rounds the unbounded Python loop is allowed to run; none models a
computation that has not yet returned within that many rounds. -/
def iterateLoop (corpus : Corpus) (damping_factor : ℚ) :
    ℕ → (String → ℚ) → Option (String → ℚ)
  | 0, _ => none
  | fuel + 1, prev =>
    let results := stepRank corpus damping_factor prev
    if allConverged corpus prev results then some results
    else iterateLoop corpus damping_factor fuel results

/-- iterate_pagerank: run the loop from the uniform initial mapping and
return the final results dict (over the corpus keys, in order). -/
def iterate_pagerank (corpus : Corpus) (damping_factor : ℚ) (fuel : ℕ) :
    Option (List (String × ℚ)) :=
  (iterateLoop corpus damping_factor fuel (initRank corpus)).map
    (fun r => corpus.map (fun kv => (kv.1, r kv.1)))

/-- Total rank mass of a rank mapping over the corpus keys. -/
def sumRanks (corpus : Corpus) (r : String → ℚ) : ℚ :=
  ((pageKeys corpus).map r).sum

/-- Modelled from the spec: incomingContribution(q, p) of section 4.3 --
prevRank(q)/outDegree(q) when q links to p, plus, independently,
prevRank(q)/N when q has zero out-links. -/
def specIncoming (corpus : Corpus) (prev : String → ℚ) (q p : String) : ℚ :=
  (if p ∈ (dictLookup corpus q).getD [] then
    prev q / (((dictLookup corpus q).getD []).length : ℚ) else 0) +
  (if ((dictLookup corpus q).getD []).length = 0 then
    prev q / (corpus.length : ℚ) else 0)

/-- Modelled from the spec: the round update of section 4.3,
newRank(p) = (1-dampingFactor)/N + dampingFactor * sum over q of
incomingContribution(q, p). -/
def specNewRank (corpus : Corpus) (damping_factor : ℚ) (prev : String → ℚ)
    (p : String) : ℚ :=
  (1 - damping_factor) / (corpus.length : ℚ) +
    damping_factor *
      ((pageKeys corpus).map (fun q => specIncoming corpus prev q p)).sum

/-- The column coefficient of the recurrence: the weight with which the rank
of corpus entry kv flows to page p in one round. -/
def colCoeff (corpus : Corpus) (kv : String × List String) (p : String) : ℚ :=
  (if p ∈ kv.2 then 1 / (kv.2.length : ℚ) else 0) +
    (if kv.2.length = 0 then 1 / (corpus.length : ℚ) else 0)

/-- Well-formedness of a corpus as produced by crawl: distinct keys, each
link set duplicate-free and contained in the corpus keys. -/
def WFCorpus (corpus : Corpus) : Prop :=
  (pageKeys corpus).Nodup ∧
    (∀ kv ∈ corpus, kv.2.Nodup) ∧
    ∀ kv ∈ corpus, ∀ l ∈ kv.2, l ∈ pageKeys corpus

/-- The convergence test of round j: does every page pass the truncation
test between the round-j and round-(j+1) rank mappings. -/
def roundTest (corpus : Corpus) (damping_factor : ℚ) (j : ℕ) : Bool :=
  allConverged corpus (prevAt corpus damping_factor j)
    (prevAt corpus damping_factor (j + 1))

/-- The two-page mutually linked corpus of the spec scenarios. -/
def tc2 : Corpus := [("A", ["B"]), ("B", ["A"])]

/-- The dangling-page corpus of the spec scenario: A dangling, B links to A. -/
def tcAB : Corpus := [("A", []), ("B", ["A"])]

/-- A one-page corpus whose page name has two characters. -/
def tcOne : Corpus := [("AB", [])]

/-! Helper lemmas about dictionary lookup. -/

theorem dictLookup_isSome_of_mem {α : Type} {l : List (String × α)} {p : String}
    (h : p ∈ l.map Prod.fst) : (dictLookup l p).isSome = true := by
  induction l with
  | nil => simp at h
  | cons kv rest ih =>
    by_cases hkv : kv.1 = p
    · simp [dictLookup, hkv]
    · have : p ∈ rest.map Prod.fst := by
        rcases List.mem_cons.mp h with h1 | h1
        · exact absurd h1.symm hkv
        · exact h1
      simp [dictLookup, hkv, ih this]

theorem dictLookup_eq_none_of_not_mem {α : Type} {l : List (String × α)} {p : String}
    (h : p ∉ l.map Prod.fst) : dictLookup l p = none := by
  induction l with
  | nil => rfl
  | cons kv rest ih =>
    have hkv : kv.1 ≠ p := by
      intro he
      exact h (by simp [he.symm])
    have hrest : p ∉ rest.map Prod.fst := by
      intro hmem
      exact h (by simp [hmem])
    simp [dictLookup, hkv, ih hrest]

theorem mem_of_dictLookup_isSome {α : Type} {l : List (String × α)} {p : String}
    (h : (dictLookup l p).isSome = true) : p ∈ l.map Prod.fst := by
  by_contra hmem
  rw [dictLookup_eq_none_of_not_mem hmem] at h
  simp at h

theorem dictLookup_map_value {α β : Type} (l : List (String × α)) (g : String → β)
    (q : String) :
    dictLookup (l.map (fun kv => (kv.1, g kv.1))) q
      = (dictLookup l q).map (fun _ => g q) := by
  induction l with
  | nil => rfl
  | cons kv rest ih =>
    by_cases hkv : kv.1 = q
    · simp [dictLookup, hkv]
    · simp [dictLookup, hkv, ih]

theorem dictLookup_of_mem_nodup {α : Type} {l : List (String × α)}
    (hK : (l.map Prod.fst).Nodup) {kv : String × α} (hkv : kv ∈ l) :
    dictLookup l kv.1 = some kv.2 := by
  induction l with
  | nil => simp at hkv
  | cons a rest ih =>
    rcases List.mem_cons.mp hkv with h1 | h1
    · subst h1
      simp [dictLookup]
    · have ha : a.1 ≠ kv.1 := by
        intro he
        have : kv.1 ∈ rest.map Prod.fst := List.mem_map_of_mem Prod.fst h1
        have hn := (List.nodup_cons.mp hK).1
        exact hn (he ▸ this)
      simp [dictLookup, ha]
      exact ih (List.nodup_cons.mp hK).2 h1

/-! Helper lemmas about the transition model. -/

theorem transition_model_core_isSome (corpus : Corpus) (p : String) (d : ℚ) :
    (transition_model_core corpus p d).isSome = (dictLookup corpus p).isSome := by
  unfold transition_model_core
  cases h : dictLookup corpus p with
  | none => simp
  | some links =>
    by_cases hl : links.length ≠ 0 <;> simp [hl]

theorem transition_model_singleton (corpus : Corpus) (p : String) (d : ℚ) :
    transition_model corpus [p] d = transition_model_core corpus p d := rfl

theorem transition_model_isSome_of_key {corpus : Corpus} {p : String} (d : ℚ)
    (h : p ∈ pageKeys corpus) : (transition_model corpus [p] d).isSome = true := by
  rw [transition_model_singleton, transition_model_core_isSome]
  exact dictLookup_isSome_of_mem h

/-! Helper lemmas about the sampling loop. -/

theorem sampleLoop_spec (corpus : Corpus) (d : ℚ) :
    ∀ (rest : List String) (cur : String) (r0 : String → ℕ),
      (∀ x ∈ rest, x ∈ pageKeys corpus) → cur ∈ pageKeys corpus →
      ∃ r, sampleLoop corpus d rest cur r0 = some r ∧
        ∀ k, r k = r0 k + occCount rest k := by
  intro rest
  induction rest with
  | nil =>
    intro cur r0 _ _
    exact ⟨r0, rfl, fun k => by simp [occCount]⟩
  | cons next rest ih =>
    intro cur r0 hrest hcur
    have hnext : next ∈ pageKeys corpus := hrest next (by simp)
    have htm : (transition_model corpus [cur] d).isSome = true :=
      transition_model_isSome_of_key d hcur
    obtain ⟨t, ht⟩ := Option.isSome_iff_exists.mp htm
    obtain ⟨r, hr, hrk⟩ :=
      ih next (fun k => if k = next then r0 k + 1 else r0 k)
        (fun x hx => hrest x (by simp [hx])) hnext
    refine ⟨r, ?_, ?_⟩
    · simp only [sampleLoop, ht, hr]
    · intro k
      rw [hrk k]
      by_cases hk : k = next
      · simp [occCount, hk]
        omega
      · have hk2 : next ≠ k := fun he => hk he.symm
        simp [occCount, hk, hk2]

/-! Bridges between list sums over the corpus and Finset sums over its keys. -/

theorem keySum (corpus : Corpus) (hK : (pageKeys corpus).Nodup) (f : String → ℚ) :
    ((pageKeys corpus).map f).sum = ∑ p ∈ (pageKeys corpus).toFinset, f p :=
  (List.sum_toFinset f hK).symm

theorem entryKey (corpus : Corpus) (f : String → ℚ) :
    (corpus.map (fun kv => f kv.1)).sum = ((pageKeys corpus).map f).sum := by
  rw [pageKeys, List.map_map]
  rfl

theorem entrySum (corpus : Corpus) (hcn : corpus.Nodup)
    (g : String × List String → ℚ) :
    (corpus.map g).sum = ∑ kv ∈ corpus.toFinset, g kv :=
  (List.sum_toFinset g hcn).symm

theorem sum_occCount (corpus : Corpus) :
    ∀ rest : List String, (∀ x ∈ rest, x ∈ pageKeys corpus) →
      ∑ p ∈ (pageKeys corpus).toFinset, ((occCount rest p : ℚ)) = rest.length := by
  intro rest
  induction rest with
  | nil => intro _; simp [occCount]
  | cons x rest ih =>
    intro h
    have hx : x ∈ (pageKeys corpus).toFinset :=
      List.mem_toFinset.mpr (h x (by simp))
    have hrest := ih (fun y hy => h y (by simp [hy]))
    simp only [occCount]
    push_cast
    rw [Finset.sum_add_distrib, hrest]
    have : (∑ p ∈ (pageKeys corpus).toFinset, if x = p then (1 : ℚ) else 0) = 1 := by
      rw [Finset.sum_ite_eq]
      simp [hx]
    rw [this]
    simp [List.length_cons]

unseal Rat.mul Rat.inv Rat.add Rat.sub in
/-- C5 counterexample: transition_model called with damping_factor = 2,
far outside (0,1), performs no validation and returns a normal
distribution instead of raising InvalidArgument. -/
theorem c5_no_invalid_argument_counterexample :
    transition_model [(("A"), ([] : List String))] [("A")] 2 = some [(("A"), 1)] := by
  decide

/-- C5 amended: the engine performs no argument validation.  For any
damping factor whatsoever, transition_model succeeds exactly when the
page is a corpus key and fails only by the KeyError-style lookup failure
on a missing page; sample_pagerank with sample count 0 fails with a
division-by-zero failure, not InvalidArgument. -/
theorem c5_no_validation_lookup_only (corpus : Corpus) (p : String) (d : ℚ)
    (draws : List String) :
    ((transition_model corpus [p] d).isSome = true ↔ p ∈ pageKeys corpus) ∧
    sample_pagerank corpus d 0 draws = none := by
  constructor
  · constructor
    · intro h
      rw [transition_model_singleton, transition_model_core_isSome] at h
      exact mem_of_dictLookup_isSome h
    · intro h
      exact transition_model_isSome_of_key d h
  · cases draws with
    | nil => rfl
    | cons d0 rest => simp [sample_pagerank]

/-- C5 witness: a concrete instance of the amended statement, with the
out-of-range damping factor 2. -/
theorem c5_no_validation_lookup_only_witness :
    ((transition_model tc2 [("A")] 2).isSome = true ↔ ("A") ∈ pageKeys tc2) ∧
    sample_pagerank tc2 2 0 [("A")] = none :=
  c5_no_validation_lookup_only tc2 ("A") 2 [("A")]

/-- C8: transition_model indexes its page argument with [0] before the
corpus lookup.  Called with the singleton list [p] it computes the
distribution for p; called with a bare string it looks up only the
one-character string made of the first character and fails (KeyError,
modelled none) whenever that character is not itself a corpus key; and
sample_pagerank, which always passes one-element lists of corpus keys,
therefore never fails. -/
theorem c8_page_index_quirk (corpus : Corpus) (p : String) (d : ℚ) :
    transition_model corpus [p] d = transition_model_core corpus p d ∧
    (∀ c cs, p.data = c :: cs →
      transition_model_str corpus p d
        = transition_model_core corpus (String.mk [c]) d) ∧
    (∀ c cs, p.data = c :: cs → String.mk [c] ∉ pageKeys corpus →
      transition_model_str corpus p d = none) ∧
    (∀ (n : ℕ) (d0 : String) (rest : List String),
      (∀ x ∈ d0 :: rest, x ∈ pageKeys corpus) → n ≠ 0 →
      (sample_pagerank corpus d n (d0 :: rest)).isSome = true) := by
  refine ⟨rfl, ?_, ?_, ?_⟩
  · intro c cs hc
    simp [transition_model_str, hc]
  · intro c cs hc hmem
    have hnone : dictLookup corpus (String.mk [c]) = none :=
      dictLookup_eq_none_of_not_mem hmem
    simp [transition_model_str, hc, transition_model_core, hnone]
  · intro n d0 rest hdr hn
    obtain ⟨r, hr, _⟩ :=
      sampleLoop_spec corpus d rest d0 (fun k => if k = d0 then 1 else 0)
        (fun x hx => hdr x (by simp [hx])) (hdr d0 (by simp))
    simp [sample_pagerank, hn, hr]

/-- C8 witness: on the corpus with single page AB, the bare-string call
fails (its first character A is not a key) while the list call and the
sampler succeed. -/
theorem c8_page_index_quirk_witness :
    transition_model_str tcOne ("AB") (1/2) = none ∧
    (sample_pagerank tcOne (1/2) 1 [("AB")]).isSome = true := by
  have h := c8_page_index_quirk tcOne ("AB") (1/2)
  exact ⟨h.2.2.1 ('A') (['B']) (by decide) (by decide),
    h.2.2.2 1 ("AB") [] (by decide) (by decide)⟩

/-- C10: with sample count 1, whatever page the single uniform draw
returns, the resulting mapping puts rank 1 on that page and 0 on every
other corpus page. -/
theorem c10_single_sample (corpus : Corpus) (d : ℚ) (d0 : String)
    (hd0 : d0 ∈ pageKeys corpus) :
    ∃ m, sample_pagerank corpus d 1 [d0] = some m ∧
      dictLookup m d0 = some 1 ∧
      ∀ q ∈ pageKeys corpus, q ≠ d0 → dictLookup m q = some 0 := by
  refine ⟨corpus.map (fun kv =>
    (kv.1, (((if kv.1 = d0 then 1 else 0 : ℕ)) : ℚ) / ((1 : ℕ) : ℚ))), ?_, ?_, ?_⟩
  · rfl
  · obtain ⟨L, hL⟩ := Option.isSome_iff_exists.mp (dictLookup_isSome_of_mem hd0)
    rw [dictLookup_map_value corpus
      (fun x => (((if x = d0 then 1 else 0 : ℕ)) : ℚ) / ((1 : ℕ) : ℚ)), hL]
    simp
  · intro q hq hne
    obtain ⟨L, hL⟩ := Option.isSome_iff_exists.mp (dictLookup_isSome_of_mem hq)
    rw [dictLookup_map_value corpus
      (fun x => (((if x = d0 then 1 else 0 : ℕ)) : ℚ) / ((1 : ℕ) : ℚ)), hL]
    simp [hne]

/-- C10 witness. -/
theorem c10_single_sample_witness :
    ∃ m, sample_pagerank tc2 (17/20) 1 [("A")] = some m ∧
      dictLookup m ("A") = some 1 ∧
      ∀ q ∈ pageKeys tc2, q ≠ ("A") → dictLookup m q = some 0 :=
  c10_single_sample tc2 (17/20) ("A") (by decide)

/-- C6: for any outcome of the random draws (each drawn page being a
corpus key), the mapping returned by sample_pagerank sums to exactly 1:
each of the n draws contributes exactly 1/n to exactly one counter. -/
theorem c6_sample_sums_to_one (corpus : Corpus) (d : ℚ) (n : ℕ)
    (draws : List String) (hK : (pageKeys corpus).Nodup)
    (hlen : draws.length = n) (hn : 0 < n)
    (hdr : ∀ x ∈ draws, x ∈ pageKeys corpus) :
    ∃ m, sample_pagerank corpus d n draws = some m ∧ (m.map Prod.snd).sum = 1 := by
  cases draws with
  | nil =>
    rw [List.length_nil] at hlen
    omega
  | cons d0 rest =>
    have hd0 : d0 ∈ pageKeys corpus := hdr d0 (by simp)
    obtain ⟨r, hr, hrk⟩ :=
      sampleLoop_spec corpus d rest d0 (fun k => if k = d0 then 1 else 0)
        (fun x hx => hdr x (by simp [hx])) hd0
    have hn0 : n ≠ 0 := Nat.pos_iff_ne_zero.mp hn
    refine ⟨corpus.map (fun kv => (((kv.1, ((r kv.1 : ℚ)) / ((n : ℕ) : ℚ))))), ?_, ?_⟩
    · simp [sample_pagerank, hn0, hr]
    · rw [List.map_map]
      have hmap : corpus.map
            (Prod.snd ∘ fun kv => (kv.1, ((r kv.1 : ℚ)) / ((n : ℕ) : ℚ)))
          = corpus.map (fun kv => ((r kv.1 : ℚ)) / ((n : ℕ) : ℚ)) := rfl
      rw [hmap, entryKey corpus (fun p => ((r p : ℚ)) / ((n : ℕ) : ℚ)),
        keySum corpus hK, ← Finset.sum_div]
      have h2 : ∑ p ∈ (pageKeys corpus).toFinset, ((r p : ℚ))
          = 1 + (rest.length : ℚ) := by
        have hp : ∀ p, ((r p : ℚ))
            = (if p = d0 then (1 : ℚ) else 0) + ((occCount rest p : ℚ)) := by
          intro p
          rw [hrk p]
          push_cast
          by_cases hpd : p = d0 <;> simp [hpd]
        rw [Finset.sum_congr rfl (fun p _ => hp p), Finset.sum_add_distrib,
          sum_occCount corpus rest (fun x hx => hdr x (by simp [hx])),
          Finset.sum_ite_eq' (pageKeys corpus).toFinset d0 (fun _ => (1 : ℚ))]
        simp [List.mem_toFinset.mpr hd0]
      rw [h2]
      have hlen2 : (1 : ℚ) + (rest.length : ℚ) = ((n : ℕ) : ℚ) := by
        rw [List.length_cons] at hlen
        push_cast [← hlen]
        ring
      rw [hlen2]
      exact div_self (Nat.cast_ne_zero.mpr hn0)

/-- C6 witness. -/
theorem c6_sample_sums_to_one_witness :
    ∃ m, sample_pagerank tc2 (17/20) 3 [("A"), ("B"), ("B")] = some m ∧
      (m.map Prod.snd).sum = 1 :=
  c6_sample_sums_to_one tc2 (17/20) 3 [("A"), ("B"), ("B")]
    (by decide) (by decide) (by decide) (by decide)

/-! The loop structure of iterate_pagerank. -/

theorem prevAt_succ (corpus : Corpus) (d : ℚ) (k : ℕ) :
    prevAt corpus d (k + 1) = stepRank corpus d (prevAt corpus d k) :=
  Function.iterate_succ_apply' (stepRank corpus d) k (initRank corpus)

theorem iterateLoop_char (corpus : Corpus) (d : ℚ) (k0 : ℕ)
    (h0 : roundTest corpus d k0 = true)
    (hmin : ∀ j < k0, roundTest corpus d j = false) :
    ∀ (fuel j : ℕ), j ≤ k0 →
      iterateLoop corpus d fuel (prevAt corpus d j)
        = if k0 - j < fuel then some (prevAt corpus d (k0 + 1)) else none := by
  intro fuel
  induction fuel with
  | zero =>
    intro j hj
    simp [iterateLoop]
  | succ fuel ih =>
    intro j hj
    have hguard :
        allConverged corpus (prevAt corpus d j)
            (stepRank corpus d (prevAt corpus d j)) = roundTest corpus d j := by
      rw [roundTest, prevAt_succ]
    by_cases hj0 : j = k0
    · subst hj0
      simp only [iterateLoop, hguard, h0, if_true]
      rw [if_pos (by omega), ← prevAt_succ]
    · have hjlt : j < k0 := lt_of_le_of_ne hj hj0
      have hfalse : roundTest corpus d j = false := hmin j hjlt
      simp only [iterateLoop, hguard, hfalse, Bool.false_eq_true, if_false]
      rw [← prevAt_succ, ih (j + 1) (Nat.succ_le_of_lt hjlt)]
      rcases Nat.lt_or_ge (k0 - (j + 1)) fuel with hc | hc
      · have hc2 : k0 - j < fuel + 1 := by omega
        rw [if_pos hc, if_pos hc2]
      · have hc2 : ¬k0 - j < fuel + 1 := by omega
        rw [if_neg (Nat.not_lt.mpr hc), if_neg hc2]

/-- C1: if round k0 is the first round whose results pass the truncation
convergence test against the previous mapping, then iterate_pagerank
returns exactly the results of round k0 whenever it is allowed at least
k0 + 1 rounds, and is still running (no result) with fewer; failed rounds
become the new previous state and iteration continues. -/
theorem c1_returns_first_convergent_round (corpus : Corpus) (d : ℚ) (k0 : ℕ)
    (h0 : roundTest corpus d k0 = true)
    (hmin : ∀ j < k0, roundTest corpus d j = false) :
    ∀ fuel : ℕ,
      iterate_pagerank corpus d fuel
        = if k0 < fuel then
            some (corpus.map (fun kv => (kv.1, prevAt corpus d (k0 + 1) kv.1)))
          else none := by
  intro fuel
  have h := iterateLoop_char corpus d k0 h0 hmin fuel 0 (Nat.zero_le k0)
  rw [Nat.sub_zero] at h
  unfold iterate_pagerank
  rw [show initRank corpus = prevAt corpus d 0 from rfl, h]
  by_cases hf : k0 < fuel
  · rw [if_pos hf, if_pos hf]
    rfl
  · rw [if_neg hf, if_neg hf]
    rfl

unseal Rat.mul Rat.inv Rat.add Rat.sub in
/-- C1 witness: on the two-page cycle the very first round already passes
the test, and one unit of fuel returns its results. -/
theorem c1_returns_first_convergent_round_witness :
    iterate_pagerank tc2 (17/20) 1 = some [(("A"), 1/2), (("B"), 1/2)] := by
  have h := c1_returns_first_convergent_round tc2 (17/20) 0 (by decide)
    (fun j hj => absurd hj (Nat.not_lt_zero j)) 1
  rw [h]
  decide

/-! The recurrence computed by each round (C2). -/

theorem linkSum_eq_spec (corpus : Corpus) (hK : (pageKeys corpus).Nodup)
    (prev : String → ℚ) (key : String) :
    linkSum corpus prev key
      = ((pageKeys corpus).map (fun q => specIncoming corpus prev q key)).sum := by
  unfold linkSum pageKeys
  rw [List.map_map]
  congr 1
  apply List.map_congr_left
  intro kv hkv
  simp only [Function.comp_apply, specIncoming,
    dictLookup_of_mem_nodup hK hkv, Option.getD_some]

/-- C2: iterate_pagerank initializes every rank to 1/N, and each round
computes, solely from the previous mapping, the spec recurrence
newRank(p) = (1-d)/N + d * sum over q of incomingContribution(q, p), the
dangling contribution prev(q)/N being added for every page p. -/
theorem c2_recurrence (corpus : Corpus) (d : ℚ)
    (hK : (pageKeys corpus).Nodup) :
    (∀ p, prevAt corpus d 0 p = 1 / (corpus.length : ℚ)) ∧
    ∀ (k : ℕ) (p : String),
      prevAt corpus d (k + 1) p = specNewRank corpus d (prevAt corpus d k) p := by
  refine ⟨fun p => rfl, fun k p => ?_⟩
  rw [prevAt_succ]
  unfold stepRank specNewRank
  rw [linkSum_eq_spec corpus hK]

/-- C2 witness. -/
theorem c2_recurrence_witness :
    prevAt tc2 (17/20) 1 ("A")
      = specNewRank tc2 (17/20) (prevAt tc2 (17/20) 0) ("A") :=
  (c2_recurrence tc2 (17/20) (by decide)).2 0 ("A")

unseal Rat.mul Rat.inv Rat.add Rat.sub in
/-- C4 counterexample: on the corpus with A dangling and B linking to A,
with damping 0.85, the rank iterate_pagerank actually returns for A is
about 0.6495, not within any reasonable tolerance of the claimed 0.6047
(it differs by more than 0.01). -/
theorem c4_claimed_values_counterexample :
    (iterate_pagerank tcAB (17/20) 20).isSome = true ∧
    1/100 < |(dictLookup ((iterate_pagerank tcAB (17/20) 20).getD []) ("A")).getD 0
      - 6047/10000| := by
  decide

unseal Rat.mul Rat.inv Rat.add Rat.sub in
/-- C4 amended: on the corpus with A dangling and B linking to A, with
damping 0.85, iterate_pagerank does rank A above B, but the returned
values are A at about 0.6495 and B at about 0.3505 (each within 0.0001). -/
theorem c4_dangling_ranks :
    (iterate_pagerank tcAB (17/20) 20).isSome = true ∧
    (dictLookup ((iterate_pagerank tcAB (17/20) 20).getD []) ("B")).getD 0 <
      (dictLookup ((iterate_pagerank tcAB (17/20) 20).getD []) ("A")).getD 0 ∧
    |(dictLookup ((iterate_pagerank tcAB (17/20) 20).getD []) ("A")).getD 0
      - 6495/10000| ≤ 1/10000 ∧
    |(dictLookup ((iterate_pagerank tcAB (17/20) 20).getD []) ("B")).getD 0
      - 3505/10000| ≤ 1/10000 := by
  decide

/-! Counting lemmas over the key Finset. -/

theorem keys_card (corpus : Corpus) (hK : (pageKeys corpus).Nodup) :
    (pageKeys corpus).toFinset.card = corpus.length := by
  rw [List.toFinset_card_of_nodup hK]
  exact List.length_map corpus Prod.fst

theorem filter_mem_card (corpus : Corpus) (L : List String)
    (hK : (pageKeys corpus).Nodup) (hLn : L.Nodup)
    (hLs : ∀ l ∈ L, l ∈ pageKeys corpus) :
    ((pageKeys corpus).toFinset.filter (fun p => p ∈ L)).card = L.length := by
  have hset : (pageKeys corpus).toFinset.filter (fun p => p ∈ L) = L.toFinset := by
    ext x
    simp only [Finset.mem_filter, List.mem_toFinset]
    exact ⟨fun h => h.2, fun h => ⟨hLs x h, h⟩⟩
  rw [hset]
  exact List.toFinset_card_of_nodup hLn

theorem sum_ite_mem (corpus : Corpus) (L : List String) (c : ℚ)
    (hK : (pageKeys corpus).Nodup) (hLn : L.Nodup)
    (hLs : ∀ l ∈ L, l ∈ pageKeys corpus) :
    (∑ p ∈ (pageKeys corpus).toFinset, if p ∈ L then c else 0)
      = (L.length : ℚ) * c := by
  rw [← Finset.sum_filter, Finset.sum_const,
    filter_mem_card corpus L hK hLn hLs, nsmul_eq_mul]

theorem length_cast_ne_zero (corpus : Corpus) (hne : corpus ≠ []) :
    ((corpus.length : ℕ) : ℚ) ≠ 0 :=
  Nat.cast_ne_zero.mpr (fun h => hne (List.length_eq_zero.mp h))

/-- C3: on a well-formed corpus, transition_model applied to a key p with
link list L returns a distribution over exactly the corpus keys that sums
to 1; when p has at least one link every linked page gets
(1-d)/N + d/outdegree and every other page gets (1-d)/N, and when p is
dangling every page gets the uniform 1/N. -/
theorem c3_transition_distribution (corpus : Corpus) (p : String)
    (L : List String) (d : ℚ) (hne : corpus ≠ [])
    (hK : (pageKeys corpus).Nodup) (hp : dictLookup corpus p = some L)
    (hLn : L.Nodup) (hLs : ∀ l ∈ L, l ∈ pageKeys corpus)
    (hd0 : 0 < d) (hd1 : d < 1) :
    ∃ m, transition_model corpus [p] d = some m ∧
      m.map Prod.fst = pageKeys corpus ∧
      (m.map Prod.snd).sum = 1 ∧
      (∀ kv ∈ m, kv.1 ∈ L →
        kv.2 = (1 - d) / (corpus.length : ℚ) + d / (L.length : ℚ)) ∧
      (∀ kv ∈ m, kv.1 ∉ L → L ≠ [] →
        kv.2 = (1 - d) / (corpus.length : ℚ)) ∧
      (L = [] → ∀ kv ∈ m, kv.2 = 1 / (corpus.length : ℚ)) := by
  have hN := length_cast_ne_zero corpus hne
  by_cases hL : L.length = 0
  · have hLnil : L = [] := List.length_eq_zero.mp hL
    refine ⟨corpus.map (fun kv => (kv.1, 1 / (corpus.length : ℚ))),
      ?_, ?_, ?_, ?_, ?_, ?_⟩
    · rw [transition_model_singleton]
      unfold transition_model_core
      rw [hp]
      simp [hL]
    · rw [List.map_map]
      rfl
    · rw [List.map_map]
      have h1 : (corpus.map
            (Prod.snd ∘ fun kv => (kv.1, 1 / (corpus.length : ℚ)))).sum
          = ((pageKeys corpus).map (fun _ => 1 / (corpus.length : ℚ))).sum :=
        entryKey corpus (fun _ => 1 / (corpus.length : ℚ))
      rw [h1, keySum corpus hK, Finset.sum_const, keys_card corpus hK,
        nsmul_eq_mul]
      field_simp
    · intro kv _ hmem
      rw [hLnil] at hmem
      simp at hmem
    · intro kv _ _ hnil
      exact absurd hLnil hnil
    · intro _ kv hkv
      obtain ⟨kv0, _, hval⟩ := List.mem_map.mp hkv
      rw [← hval]
  · have hlenQ : ((L.length : ℕ) : ℚ) ≠ 0 := Nat.cast_ne_zero.mpr hL
    refine ⟨corpus.map (fun kv => (kv.1,
        if kv.1 ∈ L then d / (L.length : ℚ) + (1 - d) / (corpus.length : ℚ)
        else (1 - d) / (corpus.length : ℚ))), ?_, ?_, ?_, ?_, ?_, ?_⟩
    · rw [transition_model_singleton]
      unfold transition_model_core
      rw [hp]
      simp [hL]
    · rw [List.map_map]
      rfl
    · rw [List.map_map]
      have h1 : (corpus.map (Prod.snd ∘ fun kv => (kv.1,
            if kv.1 ∈ L then d / (L.length : ℚ) + (1 - d) / (corpus.length : ℚ)
            else (1 - d) / (corpus.length : ℚ)))).sum
          = ((pageKeys corpus).map (fun q =>
            if q ∈ L then d / (L.length : ℚ) + (1 - d) / (corpus.length : ℚ)
            else (1 - d) / (corpus.length : ℚ))).sum :=
        entryKey corpus (fun q =>
          if q ∈ L then d / (L.length : ℚ) + (1 - d) / (corpus.length : ℚ)
          else (1 - d) / (corpus.length : ℚ))
      rw [h1, keySum corpus hK]
      have h3 : ∀ p0, (if p0 ∈ L then
            d / (L.length : ℚ) + (1 - d) / (corpus.length : ℚ)
          else (1 - d) / (corpus.length : ℚ))
          = (1 - d) / (corpus.length : ℚ)
            + (if p0 ∈ L then d / (L.length : ℚ) else 0) := by
        intro p0
        by_cases hp2 : p0 ∈ L <;> simp [hp2] <;> ring
      rw [Finset.sum_congr rfl (fun p0 _ => h3 p0), Finset.sum_add_distrib,
        Finset.sum_const, keys_card corpus hK, nsmul_eq_mul,
        sum_ite_mem corpus L (d / (L.length : ℚ)) hK hLn hLs]
      field_simp
    · intro kv hkv hmem
      obtain ⟨kv0, _, hval⟩ := List.mem_map.mp hkv
      rw [← hval] at hmem ⊢
      simp only at hmem ⊢
      rw [if_pos hmem]
      ring
    · intro kv hkv hmem _
      obtain ⟨kv0, _, hval⟩ := List.mem_map.mp hkv
      rw [← hval] at hmem ⊢
      simp only at hmem ⊢
      rw [if_neg hmem]
    · intro hnil
      exact absurd (by rw [hnil] ; rfl : L.length = 0) hL

/-- C3 witness: the two-page cycle, current page A with link list B. -/
theorem c3_transition_distribution_witness :
    ∃ m, transition_model tc2 [("A")] (17/20) = some m ∧
      m.map Prod.fst = pageKeys tc2 ∧
      (m.map Prod.snd).sum = 1 ∧
      (∀ kv ∈ m, kv.1 ∈ (["B"] : List String) →
        kv.2 = (1 - 17/20) / (tc2.length : ℚ)
          + (17/20) / ((["B"] : List String).length : ℚ)) ∧
      (∀ kv ∈ m, kv.1 ∉ (["B"] : List String) → (["B"] : List String) ≠ [] →
        kv.2 = (1 - 17/20) / (tc2.length : ℚ)) ∧
      ((["B"] : List String) = [] → ∀ kv ∈ m, kv.2 = 1 / (tc2.length : ℚ)) :=
  c3_transition_distribution tc2 ("A") (["B"]) (17/20) (by decide) (by decide)
    (by decide) (by decide) (by decide) (by norm_num) (by norm_num)

/-! The recurrence in matrix-coefficient form, and conservation of mass. -/

theorem linkSum_colCoeff (corpus : Corpus) (prev : String → ℚ) (key : String) :
    linkSum corpus prev key
      = (corpus.map (fun kv => prev kv.1 * colCoeff corpus kv key)).sum := by
  unfold linkSum colCoeff
  congr 1
  apply List.map_congr_left
  intro kv _
  by_cases h1 : key ∈ kv.2 <;> by_cases h2 : kv.2.length = 0 <;>
    simp only [h1, h2, if_pos, if_neg, if_true, if_false, ite_true, ite_false,
      not_false_iff] <;> ring

theorem colSum (corpus : Corpus) (hne : corpus ≠ [])
    (hK : (pageKeys corpus).Nodup) (kv : String × List String)
    (hLn : kv.2.Nodup) (hLs : ∀ l ∈ kv.2, l ∈ pageKeys corpus) :
    ∑ p ∈ (pageKeys corpus).toFinset, colCoeff corpus kv p = 1 := by
  have hN := length_cast_ne_zero corpus hne
  unfold colCoeff
  rw [Finset.sum_add_distrib]
  by_cases h2 : kv.2.length = 0
  · have hnil : kv.2 = [] := List.length_eq_zero.mp h2
    have e1 : (∑ p ∈ (pageKeys corpus).toFinset,
        if p ∈ kv.2 then 1 / (kv.2.length : ℚ) else 0) = 0 := by
      rw [hnil]
      simp
    have e2 : (∑ p ∈ (pageKeys corpus).toFinset,
        if kv.2.length = 0 then 1 / (corpus.length : ℚ) else 0) = 1 := by
      rw [Finset.sum_congr rfl
        (fun p _ => if_pos h2 : ∀ p0 ∈ (pageKeys corpus).toFinset,
          (if kv.2.length = 0 then 1 / (corpus.length : ℚ) else 0)
            = 1 / (corpus.length : ℚ)) ]
      rw [Finset.sum_const, keys_card corpus hK, nsmul_eq_mul]
      field_simp
    rw [e1, e2]
    ring
  · have hlenQ : ((kv.2.length : ℕ) : ℚ) ≠ 0 := Nat.cast_ne_zero.mpr h2
    have e1 : (∑ p ∈ (pageKeys corpus).toFinset,
        if p ∈ kv.2 then 1 / (kv.2.length : ℚ) else 0) = 1 := by
      rw [sum_ite_mem corpus kv.2 (1 / (kv.2.length : ℚ)) hK hLn hLs]
      field_simp
    have e2 : (∑ p ∈ (pageKeys corpus).toFinset,
        if kv.2.length = 0 then 1 / (corpus.length : ℚ) else 0) = 0 := by
      rw [Finset.sum_congr rfl
        (fun p _ => if_neg h2 : ∀ p0 ∈ (pageKeys corpus).toFinset,
          (if kv.2.length = 0 then 1 / (corpus.length : ℚ) else 0) = 0)]
      exact Finset.sum_const_zero
    rw [e1, e2]
    ring

theorem linkSum_keySum (corpus : Corpus) (hK : (pageKeys corpus).Nodup)
    (prev : String → ℚ) :
    ∑ p ∈ (pageKeys corpus).toFinset, linkSum corpus prev p
      = ∑ kv ∈ corpus.toFinset,
          ∑ p ∈ (pageKeys corpus).toFinset, prev kv.1 * colCoeff corpus kv p := by
  have hcn : corpus.Nodup := List.Nodup.of_map Prod.fst hK
  rw [Finset.sum_congr rfl (fun p _ => by
    rw [linkSum_colCoeff corpus prev p,
      entrySum corpus hcn (fun kv => prev kv.1 * colCoeff corpus kv p)])]
  exact Finset.sum_comm

theorem sum_stepRank (corpus : Corpus) (d : ℚ) (hne : corpus ≠ [])
    (hK : (pageKeys corpus).Nodup)
    (hlinks : ∀ kv ∈ corpus, kv.2.Nodup ∧ ∀ l ∈ kv.2, l ∈ pageKeys corpus)
    (prev : String → ℚ) :
    ∑ p ∈ (pageKeys corpus).toFinset, stepRank corpus d prev p
      = (1 - d) + d * ∑ p ∈ (pageKeys corpus).toFinset, prev p := by
  have hN := length_cast_ne_zero corpus hne
  have hcn : corpus.Nodup := List.Nodup.of_map Prod.fst hK
  unfold stepRank
  rw [Finset.sum_add_distrib, Finset.sum_const, keys_card corpus hK,
    nsmul_eq_mul, ← Finset.mul_sum, linkSum_keySum corpus hK prev]
  have hcol : ∀ kv ∈ corpus.toFinset,
      (∑ p ∈ (pageKeys corpus).toFinset, prev kv.1 * colCoeff corpus kv p)
        = prev kv.1 := by
    intro kv hkv
    have hmem : kv ∈ corpus := List.mem_toFinset.mp hkv
    rw [← Finset.mul_sum,
      colSum corpus hne hK kv (hlinks kv hmem).1 (hlinks kv hmem).2, mul_one]
  rw [Finset.sum_congr rfl hcol]
  have hback : ∑ kv ∈ corpus.toFinset, prev kv.1
      = ∑ p ∈ (pageKeys corpus).toFinset, prev p := by
    rw [← entrySum corpus hcn (fun kv => prev kv.1),
      entryKey corpus prev, keySum corpus hK]
  rw [hback]
  field_simp

theorem sum_prevAt (corpus : Corpus) (d : ℚ) (hne : corpus ≠ [])
    (hK : (pageKeys corpus).Nodup)
    (hlinks : ∀ kv ∈ corpus, kv.2.Nodup ∧ ∀ l ∈ kv.2, l ∈ pageKeys corpus) :
    ∀ k : ℕ, ∑ p ∈ (pageKeys corpus).toFinset, prevAt corpus d k p = 1 := by
  intro k
  induction k with
  | zero =>
    have hN := length_cast_ne_zero corpus hne
    rw [show prevAt corpus d 0 = initRank corpus from rfl]
    unfold initRank
    rw [Finset.sum_const, keys_card corpus hK, nsmul_eq_mul]
    field_simp
  | succ k ih =>
    rw [Finset.sum_congr rfl (fun p _ => by rw [prevAt_succ corpus d k]),
      sum_stepRank corpus d hne hK hlinks (prevAt corpus d k), ih]
    ring

theorem iterateLoop_round (corpus : Corpus) (d : ℚ) :
    ∀ (fuel : ℕ) (prev : String → ℚ) (r : String → ℚ),
      iterateLoop corpus d fuel prev = some r →
      ∃ k, r = (stepRank corpus d)^[k + 1] prev := by
  intro fuel
  induction fuel with
  | zero =>
    intro prev r h
    simp [iterateLoop] at h
  | succ fuel ih =>
    intro prev r h
    rw [show iterateLoop corpus d (fuel + 1) prev
        = if allConverged corpus prev (stepRank corpus d prev) then
            some (stepRank corpus d prev)
          else iterateLoop corpus d fuel (stepRank corpus d prev) from rfl] at h
    by_cases hg : allConverged corpus prev (stepRank corpus d prev) = true
    · rw [if_pos hg] at h
      refine ⟨0, ?_⟩
      rw [Function.iterate_one]
      exact (Option.some.inj h).symm
    · rw [if_neg hg] at h
      obtain ⟨k, hk⟩ := ih (stepRank corpus d prev) r h
      exact ⟨k + 1, by rw [hk, ← Function.iterate_succ_apply]⟩

/-- C7: the rank mapping held at the end of every round of
iterate_pagerank sums to exactly 1 (the recurrence conserves total mass
once the dangling contributions are included), and therefore so does any
returned mapping. -/
theorem c7_mass_conservation (corpus : Corpus) (d : ℚ) (hwf : WFCorpus corpus)
    (hne : corpus ≠ []) (hd0 : 0 < d) (hd1 : d < 1) :
    (∀ k, sumRanks corpus (prevAt corpus d k) = 1) ∧
    ∀ (fuel : ℕ) (m : List (String × ℚ)),
      iterate_pagerank corpus d fuel = some m → (m.map Prod.snd).sum = 1 := by
  obtain ⟨hK, hLn, hLs⟩ := hwf
  have hlinks : ∀ kv ∈ corpus, kv.2.Nodup ∧ ∀ l ∈ kv.2, l ∈ pageKeys corpus :=
    fun kv hkv => ⟨hLn kv hkv, hLs kv hkv⟩
  have hsum := sum_prevAt corpus d hne hK hlinks
  constructor
  · intro k
    rw [sumRanks, keySum corpus hK]
    exact hsum k
  · intro fuel m hm
    unfold iterate_pagerank at hm
    cases hl : iterateLoop corpus d fuel (initRank corpus) with
    | none =>
      rw [hl] at hm
      simp at hm
    | some r =>
      rw [hl] at hm
      simp only [Option.map_some'] at hm
      obtain ⟨k, hk⟩ := iterateLoop_round corpus d fuel (initRank corpus) r hl
      rw [← Option.some.inj hm, List.map_map]
      have h1 : (corpus.map
            (Prod.snd ∘ fun kv => (kv.1, r kv.1))).sum
          = ((pageKeys corpus).map r).sum := entryKey corpus r
      rw [h1, keySum corpus hK]
      rw [show r = prevAt corpus d (k + 1) from hk]
      exact hsum (k + 1)

/-- C7 witness. -/
theorem c7_mass_conservation_witness :
    sumRanks tc2 (prevAt tc2 (17/20) 5) = 1 :=
  (c7_mass_conservation tc2 (17/20) ⟨by decide, by decide, by decide⟩
    (by decide) (by norm_num) (by norm_num)).1 5

/-! Contraction of the round map in L1 distance, nonnegativity of ranks,
and the truncation estimates: the ingredients of termination (C9). -/

theorem colCoeff_nonneg (corpus : Corpus) (kv : String × List String)
    (p : String) : 0 ≤ colCoeff corpus kv p := by
  unfold colCoeff
  split_ifs <;> apply add_nonneg <;>
    first
    | exact div_nonneg zero_le_one (Nat.cast_nonneg _)
    | exact le_refl 0

theorem prevAt_nonneg (corpus : Corpus) (d : ℚ) (hd0 : 0 ≤ d) (hd1 : d ≤ 1) :
    ∀ (k : ℕ) (p : String), 0 ≤ prevAt corpus d k p := by
  intro k
  induction k with
  | zero =>
    intro p
    exact div_nonneg zero_le_one (Nat.cast_nonneg _)
  | succ k ih =>
    intro p
    rw [prevAt_succ]
    unfold stepRank
    have h1 : 0 ≤ (1 - d) / (corpus.length : ℚ) :=
      div_nonneg (by linarith) (Nat.cast_nonneg _)
    have h2 : 0 ≤ linkSum corpus (prevAt corpus d k) p := by
      unfold linkSum
      apply List.sum_nonneg
      intro x hx
      obtain ⟨kv, _, hval⟩ := List.mem_map.mp hx
      rw [← hval]
      split_ifs <;> apply add_nonneg <;>
        first
        | exact div_nonneg (ih _) (Nat.cast_nonneg _)
        | exact le_refl 0
    exact add_nonneg h1 (mul_nonneg hd0 h2)

theorem stepRank_sub (corpus : Corpus) (d : ℚ)
    (hcn : corpus.Nodup) (prev prev2 : String → ℚ) (p : String) :
    stepRank corpus d prev p - stepRank corpus d prev2 p
      = d * ∑ kv ∈ corpus.toFinset,
          (prev kv.1 - prev2 kv.1) * colCoeff corpus kv p := by
  unfold stepRank
  rw [linkSum_colCoeff corpus prev p, linkSum_colCoeff corpus prev2 p,
    entrySum corpus hcn (fun kv => prev kv.1 * colCoeff corpus kv p),
    entrySum corpus hcn (fun kv => prev2 kv.1 * colCoeff corpus kv p)]
  have hdiff : (∑ kv ∈ corpus.toFinset, prev kv.1 * colCoeff corpus kv p)
      - ∑ kv ∈ corpus.toFinset, prev2 kv.1 * colCoeff corpus kv p
      = ∑ kv ∈ corpus.toFinset,
          (prev kv.1 - prev2 kv.1) * colCoeff corpus kv p := by
    rw [← Finset.sum_sub_distrib]
    exact Finset.sum_congr rfl (fun kv _ => by ring)
  rw [← hdiff]
  ring

theorem l1_step (corpus : Corpus) (d : ℚ) (hne : corpus ≠ [])
    (hK : (pageKeys corpus).Nodup)
    (hlinks : ∀ kv ∈ corpus, kv.2.Nodup ∧ ∀ l ∈ kv.2, l ∈ pageKeys corpus)
    (hd0 : 0 ≤ d) (prev prev2 : String → ℚ) :
    ∑ p ∈ (pageKeys corpus).toFinset,
        |stepRank corpus d prev p - stepRank corpus d prev2 p|
      ≤ d * ∑ p ∈ (pageKeys corpus).toFinset, |prev p - prev2 p| := by
  have hcn : corpus.Nodup := List.Nodup.of_map Prod.fst hK
  calc
    ∑ p ∈ (pageKeys corpus).toFinset,
        |stepRank corpus d prev p - stepRank corpus d prev2 p|
      = ∑ p ∈ (pageKeys corpus).toFinset,
          d * |∑ kv ∈ corpus.toFinset,
            (prev kv.1 - prev2 kv.1) * colCoeff corpus kv p| := by
        refine Finset.sum_congr rfl (fun p _ => ?_)
        rw [stepRank_sub corpus d hcn prev prev2 p, abs_mul, abs_of_nonneg hd0]
    _ ≤ ∑ p ∈ (pageKeys corpus).toFinset,
          d * ∑ kv ∈ corpus.toFinset,
            |prev kv.1 - prev2 kv.1| * colCoeff corpus kv p := by
        refine Finset.sum_le_sum (fun p _ => ?_)
        refine mul_le_mul_of_nonneg_left ?_ hd0
        calc
          |∑ kv ∈ corpus.toFinset,
              (prev kv.1 - prev2 kv.1) * colCoeff corpus kv p|
            ≤ ∑ kv ∈ corpus.toFinset,
                |(prev kv.1 - prev2 kv.1) * colCoeff corpus kv p| :=
              Finset.abs_sum_le_sum_abs _ _
          _ = ∑ kv ∈ corpus.toFinset,
                |prev kv.1 - prev2 kv.1| * colCoeff corpus kv p := by
              refine Finset.sum_congr rfl (fun kv _ => ?_)
              rw [abs_mul, abs_of_nonneg (colCoeff_nonneg corpus kv p)]
    _ = d * ∑ kv ∈ corpus.toFinset,
          |prev kv.1 - prev2 kv.1| * ∑ p ∈ (pageKeys corpus).toFinset,
            colCoeff corpus kv p := by
        rw [← Finset.mul_sum, Finset.sum_comm]
        congr 1
        exact Finset.sum_congr rfl (fun kv _ => (Finset.mul_sum _ _ _).symm)
    _ = d * ∑ kv ∈ corpus.toFinset, |prev kv.1 - prev2 kv.1| := by
        congr 1
        refine Finset.sum_congr rfl (fun kv hkv => ?_)
        rw [colSum corpus hne hK kv (hlinks kv (List.mem_toFinset.mp hkv)).1
          (hlinks kv (List.mem_toFinset.mp hkv)).2, mul_one]
    _ = d * ∑ p ∈ (pageKeys corpus).toFinset, |prev p - prev2 p| := by
        congr 1
        rw [← entrySum corpus hcn (fun kv => |prev kv.1 - prev2 kv.1|),
          entryKey corpus (fun q => |prev q - prev2 q|), keySum corpus hK]

theorem prevAt_diff_bound (corpus : Corpus) (d : ℚ) (hne : corpus ≠ [])
    (hK : (pageKeys corpus).Nodup)
    (hlinks : ∀ kv ∈ corpus, kv.2.Nodup ∧ ∀ l ∈ kv.2, l ∈ pageKeys corpus)
    (hd0 : 0 ≤ d) (hd1 : d ≤ 1) :
    ∀ k : ℕ, ∑ p ∈ (pageKeys corpus).toFinset,
        |prevAt corpus d (k + 1) p - prevAt corpus d k p| ≤ 2 * d ^ k := by
  intro k
  induction k with
  | zero =>
    have hnn := prevAt_nonneg corpus d hd0 hd1
    have hsum := sum_prevAt corpus d hne hK hlinks
    calc
      ∑ p ∈ (pageKeys corpus).toFinset,
          |prevAt corpus d 1 p - prevAt corpus d 0 p|
        ≤ ∑ p ∈ (pageKeys corpus).toFinset,
            (prevAt corpus d 1 p + prevAt corpus d 0 p) := by
          refine Finset.sum_le_sum (fun p _ => ?_)
          calc
            |prevAt corpus d 1 p - prevAt corpus d 0 p|
              ≤ |prevAt corpus d 1 p| + |prevAt corpus d 0 p| := abs_sub _ _
            _ = prevAt corpus d 1 p + prevAt corpus d 0 p := by
                rw [abs_of_nonneg (hnn 1 p), abs_of_nonneg (hnn 0 p)]
      _ = 2 * d ^ 0 := by
          rw [Finset.sum_add_distrib, hsum 1, hsum 0]
          norm_num
  | succ k ih =>
    have hstep := l1_step corpus d hne hK hlinks hd0
      (prevAt corpus d (k + 1)) (prevAt corpus d k)
    calc
      ∑ p ∈ (pageKeys corpus).toFinset,
          |prevAt corpus d (k + 2) p - prevAt corpus d (k + 1) p|
        = ∑ p ∈ (pageKeys corpus).toFinset,
            |stepRank corpus d (prevAt corpus d (k + 1)) p
              - stepRank corpus d (prevAt corpus d k) p| := by
          refine Finset.sum_congr rfl (fun p _ => ?_)
          rw [prevAt_succ corpus d (k + 1), prevAt_succ corpus d k]
      _ ≤ d * ∑ p ∈ (pageKeys corpus).toFinset,
            |prevAt corpus d (k + 1) p - prevAt corpus d k p| := hstep
      _ ≤ d * (2 * d ^ k) := mul_le_mul_of_nonneg_left ih hd0
      _ = 2 * d ^ (k + 1) := by ring

theorem trunc4_bounds (x : ℚ) (hx : 0 ≤ x) :
    trunc4 x ≤ x ∧ x - 1 / 10 ^ 4 < trunc4 x := by
  unfold trunc4 mtrunc
  have hx4 : 0 ≤ x * 10 ^ 4 := by positivity
  rw [if_pos hx4]
  constructor
  · have h1 : ((⌊x * 10 ^ 4⌋ : ℤ) : ℚ) ≤ x * 10 ^ 4 := Int.floor_le _
    calc
      ((⌊x * 10 ^ 4⌋ : ℤ) : ℚ) / 10 ^ 4 ≤ x * 10 ^ 4 / 10 ^ 4 :=
        (div_le_div_right (by norm_num)).mpr h1
      _ = x := by field_simp
  · have h2 : x * 10 ^ 4 - 1 < ((⌊x * 10 ^ 4⌋ : ℤ) : ℚ) := Int.sub_one_lt_floor _
    calc
      x - 1 / 10 ^ 4 = (x * 10 ^ 4 - 1) / 10 ^ 4 := by ring
      _ < ((⌊x * 10 ^ 4⌋ : ℤ) : ℚ) / 10 ^ 4 :=
        (div_lt_div_right (by norm_num)).mpr h2

theorem mtrunc_le_one (y : ℚ) (hy0 : 0 ≤ y) (hy : y < 1) : mtrunc y ≤ 1 := by
  unfold mtrunc
  rw [if_pos hy0]
  have h1 : ⌊y⌋ < (1 : ℤ) := Int.floor_lt.mpr (by exact_mod_cast hy)
  omega

theorem conv_pass (a b : ℚ) (ha : 0 ≤ a) (hb : 0 ≤ b)
    (hab : |b - a| < 1 / 2000) :
    mtrunc (|trunc4 b - trunc4 a| * 10 ^ 3) ≤ 1 := by
  obtain ⟨hb1, hb2⟩ := trunc4_bounds b hb
  obtain ⟨ha1, ha2⟩ := trunc4_bounds a ha
  have habs := abs_lt.mp hab
  have h1 : |trunc4 b - trunc4 a| < 7 / 10000 := by
    rw [abs_lt]
    constructor <;> [linarith [habs.1]; linarith [habs.2]]
  apply mtrunc_le_one
  · positivity
  · calc
      |trunc4 b - trunc4 a| * 10 ^ 3 < 7 / 10000 * 10 ^ 3 :=
        mul_lt_mul_of_pos_right h1 (by norm_num)
      _ < 1 := by norm_num

theorem allConverged_of_bound (corpus : Corpus) (prev results : String → ℚ)
    (h : ∀ p ∈ pageKeys corpus,
      mtrunc (|trunc4 (results p) - trunc4 (prev p)| * 10 ^ 3) ≤ 1) :
    allConverged corpus prev results = true := by
  unfold allConverged
  rw [List.all_eq_true]
  intro p hp
  exact decide_eq_true (h p hp)

theorem iterateLoop_isSome (corpus : Corpus) (d : ℚ) :
    ∀ (fuel : ℕ) (prev : String → ℚ),
      (∃ k < fuel, allConverged corpus ((stepRank corpus d)^[k] prev)
        ((stepRank corpus d)^[k + 1] prev) = true) →
      (iterateLoop corpus d fuel prev).isSome = true := by
  intro fuel
  induction fuel with
  | zero =>
    rintro prev ⟨k, hk, _⟩
    exact absurd hk (Nat.not_lt_zero k)
  | succ fuel ih =>
    rintro prev ⟨k, hk, hconv⟩
    rw [show iterateLoop corpus d (fuel + 1) prev
        = if allConverged corpus prev (stepRank corpus d prev) then
            some (stepRank corpus d prev)
          else iterateLoop corpus d fuel (stepRank corpus d prev) from rfl]
    by_cases hg : allConverged corpus prev (stepRank corpus d prev) = true
    · rw [if_pos hg]
      rfl
    · rw [if_neg hg]
      apply ih
      cases k with
      | zero =>
        rw [Function.iterate_zero_apply, Function.iterate_one] at hconv
        exact absurd hconv hg
      | succ k =>
        refine ⟨k, by omega, ?_⟩
        rw [← Function.iterate_succ_apply, ← Function.iterate_succ_apply]
        exact hconv

/-- C9: on every well-formed non-empty corpus with damping factor strictly
between 0 and 1, iterate_pagerank terminates: some round passes the
convergence test for every page simultaneously, and the function returns
a mapping. -/
theorem c9_terminates (corpus : Corpus) (d : ℚ) (hwf : WFCorpus corpus)
    (hne : corpus ≠ []) (hd0 : 0 < d) (hd1 : d < 1) :
    ∃ (fuel : ℕ) (m : List (String × ℚ)),
      iterate_pagerank corpus d fuel = some m := by
  obtain ⟨hK, hLn, hLs⟩ := hwf
  have hlinks : ∀ kv ∈ corpus, kv.2.Nodup ∧ ∀ l ∈ kv.2, l ∈ pageKeys corpus :=
    fun kv hkv => ⟨hLn kv hkv, hLs kv hkv⟩
  obtain ⟨k, hk⟩ :=
    exists_pow_lt_of_lt_one (show (0 : ℚ) < 1 / 4000 by norm_num) hd1
  have hD := prevAt_diff_bound corpus d hne hK hlinks
    (le_of_lt hd0) (le_of_lt hd1) k
  have hnn := prevAt_nonneg corpus d (le_of_lt hd0) (le_of_lt hd1)
  have hper : ∀ p ∈ pageKeys corpus,
      mtrunc (|trunc4 (prevAt corpus d (k + 1) p)
        - trunc4 (prevAt corpus d k p)| * 10 ^ 3) ≤ 1 := by
    intro p hp
    apply conv_pass _ _ (hnn k p) (hnn (k + 1) p)
    have hsingle : |prevAt corpus d (k + 1) p - prevAt corpus d k p|
        ≤ ∑ q ∈ (pageKeys corpus).toFinset,
            |prevAt corpus d (k + 1) q - prevAt corpus d k q| :=
      Finset.single_le_sum
        (f := fun q => |prevAt corpus d (k + 1) q - prevAt corpus d k q|)
        (fun q _ => abs_nonneg _) (List.mem_toFinset.mpr hp)
    have hmul : 2 * d ^ k < 2 * (1 / 4000) :=
      mul_lt_mul_of_pos_left hk (by norm_num)
    calc
      |prevAt corpus d (k + 1) p - prevAt corpus d k p|
        ≤ ∑ q ∈ (pageKeys corpus).toFinset,
            |prevAt corpus d (k + 1) q - prevAt corpus d k q| := hsingle
      _ ≤ 2 * d ^ k := hD
      _ < 1 / 2000 := by linarith
  have hconv : allConverged corpus (prevAt corpus d k)
      (prevAt corpus d (k + 1)) = true :=
    allConverged_of_bound corpus (prevAt corpus d k)
      (prevAt corpus d (k + 1)) hper
  have hsome := iterateLoop_isSome corpus d (k + 1) (initRank corpus)
    ⟨k, Nat.lt_succ_self k, hconv⟩
  obtain ⟨r, hr⟩ := Option.isSome_iff_exists.mp hsome
  refine ⟨k + 1, corpus.map (fun kv => (kv.1, r kv.1)), ?_⟩
  unfold iterate_pagerank
  rw [hr]
  rfl

/-- C9 witness. -/
theorem c9_terminates_witness :
    ∃ (fuel : ℕ) (m : List (String × ℚ)),
      iterate_pagerank tc2 (17/20) fuel = some m :=
  c9_terminates tc2 (17/20) ⟨by decide, by decide, by decide⟩ (by decide)
    (by norm_num) (by norm_num)

end PageRank
